import Mathlib

/-!
Verification of `src/litmus/libdir/_aarch64/self.c`, the diy/litmus support
file for self-modifying code on AArch64.  The file defines two primitives:

* `selfbar(p)` — inline assembly `dc cvau,p ; dsb sy ; ic ivau,p ; dsb sy ; isb`,
  the cache-coherence barrier that makes freshly written instruction bytes at
  `p` visible to instruction fetch;
* `getret()` — inline assembly
  `adr x1,0f ; ldr w2,[x1] ; b 1f ; 0: ; ret ; 1:` that reads back the
  toolchain's encoding of the `ret` instruction from its own code and returns
  it.

The instruction sequences below are transcribed instruction-by-instruction
from the source.  The semantics of the individual hardware primitives (cache
maintenance, barriers, instruction fetch, the RET encoding) are not part of
the repository, so they are modelled from the specification's description of
those primitives.
-/

/-- Cache line size in bytes.  AArch64 `dc cvau` / `ic ivau` act on the whole
cache line containing the given address; the size is implementation-defined
on real hardware, and any positive value yields the same theory.  We fix a
common value. -/
def lineSize : Nat := 64

/-- The index of the cache line containing an address. -/
def lineOf (a : Nat) : Nat := a / lineSize

/-- Primitive hardware operations.  The first four are exactly the
operations appearing in `selfbar`'s inline assembly; the last three are the
ambient operations of the environment (data-side stores, instruction-cache
line fills, pipeline prefetches) needed to state what "subsequent
instruction fetch" means after the barrier. -/
inductive COp : Type
  | dc_cvau (p : Nat)
  | dsb_sy
  | ic_ivau (p : Nat)
  | isb
  | wr (a w : Nat)
  | ifill (a : Nat)
  | prefetch (a : Nat)
  deriving DecidableEq

/-- Modelled from the spec: the cache/memory state of the machine.  `mem` is
the point of unification, `dcache` and `icache` hold per-address cached
values (`none` = not cached), `pipeline` holds prefetched/speculatively
fetched instruction words, and `pendDC` / `pendIC` record by-address cache
maintenance operations that have been issued but not yet completed (a
`dsb sy` completes them). -/
structure CacheState : Type where
  mem : Nat → Nat
  dcache : Nat → Option Nat
  icache : Nat → Option Nat
  pipeline : Nat → Option Nat
  pendDC : List Nat
  pendIC : List Nat

/-- The value an instruction fetch at `a` observes: the pipeline's
prefetched word if any, else the instruction cache, else memory. -/
def instrFetch (s : CacheState) (a : Nat) : Nat :=
  (s.pipeline a).getD ((s.icache a).getD (s.mem a))

/-- The program-visible data value at `a`: the data cache if the line is
present, else memory.  Ordinary loads and stores act on this view. -/
def dataView (s : CacheState) (a : Nat) : Nat :=
  (s.dcache a).getD (s.mem a)

/-- Completing pending data-cache cleans: every address whose line has a
pending clean gets its (possibly dirty) data-cache value written back to the
point of unification.  A clean does not drop the cache line. -/
def applyClean (pend : List Nat) (dc : Nat → Option Nat) (m : Nat → Nat) :
    Nat → Nat :=
  fun a => if pend.any (fun q => lineOf q == lineOf a) then (dc a).getD (m a) else m a

/-- Modelled from the spec: semantics of one primitive hardware operation.
`dc cvau,p` queues a clean-to-point-of-unification of `p`'s line;
`ic ivau,p` queues an invalidate of `p`'s line in the instruction cache;
`dsb sy` completes all queued maintenance; `isb` flushes the
prefetch/speculation pipeline; `wr` is a data-side store (into the data
cache); `ifill` fills an instruction-cache line from memory; `prefetch`
loads the pipeline with the currently fetchable word. -/
def stepOp : COp → CacheState → CacheState
  | .dc_cvau p, s => { s with pendDC := p :: s.pendDC }
  | .dsb_sy, s =>
      { s with
        mem := applyClean s.pendDC s.dcache s.mem,
        icache := fun a =>
          if s.pendIC.any (fun q => lineOf q == lineOf a) then none else s.icache a,
        pendDC := [], pendIC := [] }
  | .ic_ivau p, s => { s with pendIC := p :: s.pendIC }
  | .isb, s => { s with pipeline := fun _ => none }
  | .wr a w, s => { s with dcache := fun x => if x = a then some w else s.dcache x }
  | .ifill a, s => { s with icache := fun x => if x = a then some (s.mem a) else s.icache x }
  | .prefetch a, s =>
      { s with pipeline := fun x => if x = a then some (instrFetch s a) else s.pipeline x }

/-- Run a sequence of primitive operations in order. -/
def runOps (ops : List COp) (s : CacheState) : CacheState :=
  ops.foldl (fun s op => stepOp op s) s

/-- The operation sequence of `selfbar`, transcribed from the inline
assembly `"dc cvau,%[p]" "dsb sy" "ic ivau,%[p]" "dsb sy" "isb"`. -/
def selfbarOps (p : Nat) : List COp :=
  [.dc_cvau p, .dsb_sy, .ic_ivau p, .dsb_sy, .isb]

/-- The effect of one `selfbar(p)` call on the cache state. -/
def selfbarRun (p : Nat) (s : CacheState) : CacheState :=
  runOps (selfbarOps p) s

/-- Modelled from the spec: «clean the data cache line to the point of
unification; full system memory barrier; invalidate the instruction cache
line at the same address; full system memory barrier; instruction
synchronization barrier», in that order. -/
def specCoherenceSequence (p : Nat) : List COp :=
  [.dc_cvau p, .dsb_sy, .ic_ivau p, .dsb_sy, .isb]

/-- Whether a primitive operation stores data into the cache line of `p`. -/
def writesLine (p : Nat) : COp → Bool
  | .wr a _ => lineOf a == lineOf p
  | _ => false

lemma instrFetch_selfbarRun (s : CacheState) (p q : Nat) (h : lineOf q = lineOf p) :
    instrFetch (selfbarRun p s) q = dataView s q := by
  cases hd : s.dcache q <;>
    simp [selfbarRun, selfbarOps, runOps, stepOp, instrFetch, dataView, applyClean, h, hd]

lemma dataView_selfbarRun (p : Nat) (s : CacheState) (a : Nat) :
    dataView (selfbarRun p s) a = dataView s a := by
  cases hd : s.dcache a <;>
    simp [selfbarRun, selfbarOps, runOps, stepOp, dataView, applyClean, hd]

/-- C1.  The coherence barrier `selfbar`, applied to any address `p`,
executes exactly the five primitive operations clean-data-cache-to-PoU at
`p`, full system barrier, invalidate-icache at `p`, full system barrier,
instruction synchronization barrier, in that order, with nothing reordered,
dropped or added; consequently its state effect is the composition of those
five primitives in that order. -/
theorem selfbar_exact_sequence (p : Nat) (s : CacheState) :
    selfbarOps p = specCoherenceSequence p ∧
      selfbarRun p s = runOps (specCoherenceSequence p) s :=
  ⟨rfl, rfl⟩

/-- C7.  Frame property: `selfbar(p)` leaves every program-visible memory
value unchanged, for every address; its effects are confined to
cache/pipeline state (what instruction fetch observes). -/
theorem selfbar_frame (p : Nat) (s : CacheState) (a : Nat) :
    dataView (selfbarRun p s) a = dataView s a :=
  dataView_selfbarRun p s a

/-- Coherence of the word at `p` with value `v`: the point of unification
holds `v`, and each cache level either misses or holds `v`.  This is the
state `selfbar p` establishes, and it is what makes every later instruction
fetch of `p` return `v`. -/
def coherentAt (s : CacheState) (p v : Nat) : Prop :=
  s.mem p = v ∧ (∀ w, s.dcache p = some w → w = v) ∧
    (∀ w, s.icache p = some w → w = v) ∧ (∀ w, s.pipeline p = some w → w = v)

lemma coherentAt_instrFetch {s : CacheState} {p v : Nat}
    (h : coherentAt s p v) : instrFetch s p = v := by
  obtain ⟨h1, h2, h3, h4⟩ := h
  unfold instrFetch
  cases hp : s.pipeline p with
  | some w => simpa using h4 w hp
  | none =>
    cases hi : s.icache p with
    | some w => simpa using h3 w hi
    | none => simpa using h1

lemma coherentAt_stepOp {s : CacheState} {p v : Nat} (op : COp)
    (hw : writesLine p op = false) (h : coherentAt s p v) :
    coherentAt (stepOp op s) p v := by
  obtain ⟨h1, h2, h3, h4⟩ := h
  cases op with
  | dc_cvau q => exact ⟨h1, h2, h3, h4⟩
  | dsb_sy =>
    refine ⟨?_, h2, ?_, h4⟩
    · show applyClean s.pendDC s.dcache s.mem p = v
      unfold applyClean
      cases hd : s.dcache p with
      | some w => simp [hd, h2 w hd, h1]
      | none => simp [hd, h1]
    · intro w hw'
      simp only [stepOp] at hw'
      by_cases hc : s.pendIC.any (fun q => lineOf q == lineOf p)
      · simp [hc] at hw'
      · simp [hc] at hw'
        exact h3 w hw'
  | ic_ivau q => exact ⟨h1, h2, h3, h4⟩
  | isb =>
    refine ⟨h1, h2, h3, ?_⟩
    intro w hw'
    simp [stepOp] at hw'
  | wr a w =>
    refine ⟨h1, ?_, h3, h4⟩
    intro w' hw'
    simp only [stepOp] at hw'
    have hne : p ≠ a := by
      intro he
      subst he
      simp [writesLine] at hw
    simp [hne] at hw'
    exact h2 w' hw'
  | ifill a =>
    refine ⟨h1, h2, ?_, h4⟩
    intro w hw'
    simp only [stepOp] at hw'
    by_cases he : p = a
    · subst he
      simp [h1] at hw'
      omega
    · simp [he] at hw'
      exact h3 w hw'
  | prefetch a =>
    refine ⟨h1, h2, h3, ?_⟩
    intro w hw'
    simp only [stepOp] at hw'
    by_cases he : p = a
    · subst he
      simp at hw'
      rw [← hw']
      exact coherentAt_instrFetch ⟨h1, h2, h3, h4⟩
    · simp [he] at hw'
      exact h4 w hw'

lemma coherentAt_runOps {p v : Nat} (ops : List COp)
    (hw : ∀ op ∈ ops, writesLine p op = false) :
    ∀ s : CacheState, coherentAt s p v → coherentAt (runOps ops s) p v := by
  induction ops with
  | nil => intro s h; exact h
  | cons op rest ih =>
    intro s h
    have h1 : writesLine p op = false := hw op (List.mem_cons_self op rest)
    have h2 : ∀ o ∈ rest, writesLine p o = false := fun o ho =>
      hw o (List.mem_cons_of_mem op ho)
    exact ih h2 (stepOp op s) (coherentAt_stepOp op h1 h)

lemma coherentAt_selfbarRun (s : CacheState) (p : Nat) :
    coherentAt (selfbarRun p s) p (dataView s p) := by
  refine ⟨?_, ?_, ?_, ?_⟩
  · show (selfbarRun p s).mem p = dataView s p
    cases hd : s.dcache p with
    | some w =>
      simp [selfbarRun, selfbarOps, runOps, stepOp, applyClean, dataView, hd]
    | none =>
      simp [selfbarRun, selfbarOps, runOps, stepOp, applyClean, dataView, hd]
  · intro w hw
    have hd : (selfbarRun p s).dcache p = s.dcache p := by
      simp [selfbarRun, selfbarOps, runOps, stepOp]
    rw [hd] at hw
    simp [dataView, hw]
  · intro w hw
    simp [selfbarRun, selfbarOps, runOps, stepOp] at hw
  · intro w hw
    simp [selfbarRun, selfbarOps, runOps, stepOp] at hw

/-- C2.  Visibility: start from any cache/memory state, write the new
instruction word `w` to `p` (a data-side store), run `selfbar p`; then any
subsequent instruction fetch from `p` — after any further sequence of
operations that do not store into `p`'s line (cache fills, prefetches,
barriers, maintenance, and stores to other lines are all allowed) —
observes `w`, never a stale cached encoding. -/
theorem selfbar_visibility (s : CacheState) (p w : Nat) (rest : List COp)
    (h : ∀ op ∈ rest, writesLine p op = false) :
    instrFetch (runOps rest (selfbarRun p (stepOp (.wr p w) s))) p = w := by
  have hv : dataView (stepOp (.wr p w) s) p = w := by
    simp [stepOp, dataView]
  have h0 := coherentAt_selfbarRun (stepOp (.wr p w) s) p
  rw [hv] at h0
  exact coherentAt_instrFetch (coherentAt_runOps rest h _ h0)

/-- A concrete cache state used to witness the barrier theorems: stale
instruction words everywhere (icache and pipeline both cache `7` at every
address), memory all zero, data cache holding `99` at address `130`. -/
def sWit : CacheState :=
  ⟨fun _ => 0, fun a => if a = 130 then some 99 else none,
    fun _ => some 7, fun _ => some 7, [], []⟩

theorem selfbar_visibility_witness :
    instrFetch
      (runOps [.prefetch 8, .ifill 8, .wr 200 5, .dsb_sy, .isb]
        (selfbarRun 8 (stepOp (.wr 8 42) sWit))) 8 = 42 :=
  selfbar_visibility sWit 8 42 [.prefetch 8, .ifill 8, .wr 200 5, .dsb_sy, .isb]
    (by decide)

/-- C10.  Line granularity: one call `selfbar p` makes every address `q` in
the cache line containing `p` (not only `p` itself) coherent: the next
instruction fetch of any such `q` observes the program-visible data at `q`,
i.e. the newly written bytes of the whole line. -/
theorem selfbar_line_granularity (s : CacheState) (p q : Nat)
    (h : lineOf q = lineOf p) :
    instrFetch (selfbarRun p s) q = dataView s q :=
  instrFetch_selfbarRun s p q h

theorem selfbar_line_granularity_witness :
    lineOf 130 = lineOf 128 ∧ instrFetch (selfbarRun 128 sWit) 130 = 99 :=
  ⟨by decide, by
    have h := selfbar_line_granularity sWit 128 130 (by decide)
    simpa [sWit, dataView] using h⟩

/-- The two local labels `0:` and `1:` of `getret`'s inline assembly. -/
inductive GLabel : Type
  | l0
  | l1
  deriving DecidableEq

/-- The instructions of `getret`'s inline assembly.  The two output
registers `%[x1]` (the computed address) and `%w[x2]` (the loaded word) are
implicit in `adr` and `ldr`. -/
inductive GInstr : Type
  | adr (l : GLabel)
  | ldr (off : Int)
  | br (l : GLabel)
  | ret
  deriving DecidableEq

/-- One line of the assembly block: an instruction or a label. -/
inductive GItem : Type
  | inst (i : GInstr)
  | lab (l : GLabel)
  deriving DecidableEq

/-- The `getret` assembly block, transcribed line by line from the source:
`adr %[x1],0f ; ldr %w[x2],[%[x1]] ; b 1f ; 0: ; ret ; 1:`.  Note the `ldr`
has no displacement (offset `0`), label `0:` stands directly on the `ret`
instruction and label `1:` directly after it. -/
def getretAsm : List GItem :=
  [.inst (.adr .l0), .inst (.ldr 0), .inst (.br .l1), .lab .l0, .inst .ret,
    .lab .l1]

/-- The byte offset of a label within an assembly block: each instruction
occupies 4 bytes, labels occupy none. -/
def labelOffset (l : GLabel) : List GItem → Nat → Option Nat
  | [], _ => none
  | .inst _ :: rest, o => labelOffset l rest (o + 4)
  | .lab m :: rest, o => if m = l then some o else labelOffset l rest o

/-- The byte offset of the first `ret` instruction in an assembly block. -/
def retOffset : List GItem → Nat → Option Nat
  | [], _ => none
  | .inst .ret :: _, o => some o
  | .inst _ :: rest, o => retOffset rest (o + 4)
  | .lab _ :: rest, o => retOffset rest o

/-- The instruction at a given byte offset of an assembly block. -/
def instrAt : List GItem → Nat → Nat → Option GInstr
  | [], _, _ => none
  | .inst i :: rest, o, pc => if o = pc then some i else instrAt rest (o + 4) pc
  | .lab _ :: rest, o, pc => instrAt rest o pc

/-- Byte position of a label in `getret`'s block (`.l0 ↦ 12`, `.l1 ↦ 16`). -/
def labelPos (l : GLabel) : Nat :=
  (labelOffset l getretAsm 0).getD 0

/-- Byte position of the embedded `ret` instruction in `getret`'s block. -/
def getretRetPos : Nat :=
  (retOffset getretAsm 0).getD 0

/-- The instruction list of an assembly block, labels dropped. -/
def codeOf (items : List GItem) : List GInstr :=
  items.filterMap fun it =>
    match it with
    | .inst i => some i
    | .lab _ => none

/-- The label targeted by the leading `adr`, if the block starts with one. -/
def adrTargetOf (c : List GInstr) : Option GLabel :=
  match c.get? 0 with
  | some (.adr l) => some l
  | _ => none

/-- The displacement of the second instruction's `ldr`, if it is one. -/
def ldrOffOf (c : List GInstr) : Option Int :=
  match c.get? 1 with
  | some (.ldr o) => some o
  | _ => none

/-- The label targeted by the third instruction's branch, if it is one. -/
def brTargetOf (c : List GInstr) : Option GLabel :=
  match c.get? 2 with
  | some (.br l) => some l
  | _ => none

/-- Machine state while executing `getret`'s assembly block.  `base` is the
address at which the block is placed, `mem` the process memory (the block's
own code lives inside it), `x1` / `r` the two output registers, `pc` the
byte offset of the next instruction within the block, `trace` the byte
offsets of the instructions executed so far, and `earlyRet` records whether
the embedded `ret` was ever executed (which would leave the function
prematurely). -/
structure GM : Type where
  base : Nat
  mem : Nat → Nat
  x1 : Nat
  r : Nat
  pc : Nat
  trace : List Nat
  earlyRet : Bool

/-- Modelled from the spec: effect of one `getret` instruction.  `adr l`
puts the run-time address of label `l` in `x1`; `ldr off` loads the 32-bit
word at `x1 + off`; `b l` branches to label `l`; executing the embedded
`ret` would return prematurely, which we record in `earlyRet`. -/
def execG (i : GInstr) (s : GM) : GM :=
  match i with
  | .adr l =>
      { s with x1 := s.base + labelPos l, pc := s.pc + 4, trace := s.trace ++ [s.pc] }
  | .ldr off =>
      { s with r := s.mem (((s.x1 : Int) + off).toNat), pc := s.pc + 4,
               trace := s.trace ++ [s.pc] }
  | .br l => { s with pc := labelPos l, trace := s.trace ++ [s.pc] }
  | .ret => { s with earlyRet := true, pc := s.pc + 4, trace := s.trace ++ [s.pc] }

/-- Run `getret`'s block for at most `n` steps; stops when the `pc` leaves
the block (no instruction at that offset). -/
def runG : Nat → GM → GM
  | 0, s => s
  | Nat.succ n, s =>
      match instrAt getretAsm 0 s.pc with
      | none => s
      | some i => runG n (execG i s)

/-- One call of `getret`, starting at the head of the block with arbitrary
initial register junk `x10`, `r0`; the fuel `8` exceeds the block length, so
the run always reaches the block's end.  The C function then returns `r`. -/
def runGetret (base : Nat) (mem : Nat → Nat) (x10 r0 : Nat) : GM :=
  runG 8 ⟨base, mem, x10, r0, 0, [], false⟩

/-- The AArch64 encoding of `RET Xn`: `0xD65F0000` with the link register
number in bits 5–9.  Modelled from the spec's documented RET encoding. -/
def encodeRET (rn : Nat) : Nat := 0xD65F0000 + rn * 32

/-- The hypothesis under which `getret` is analysed: the toolchain has
assembled the block at `base`, so the word at the `ret` slot (offset 12) is
the encoding of `ret`, i.e. `RET X30` (`x30` is the default link
register). -/
def codeLoaded (base : Nat) (mem : Nat → Nat) : Prop :=
  mem (base + getretRetPos) = encodeRET 30

/-- Closed form of a `getret` run: the `adr` puts `base + 12` (label `0:`)
in `x1`, the `ldr` reads the word there into `r`, the branch skips the
embedded `ret` to label `1:` (offset 16) where the block ends; memory is
untouched. -/
lemma runGetret_eq (base : Nat) (mem : Nat → Nat) (x10 r0 : Nat) :
    runGetret base mem x10 r0 =
      ⟨base, mem, base + 12, mem (base + 12), 16, [0, 4, 8], false⟩ := by
  simp [runGetret, runG, instrAt, getretAsm, execG, labelPos, labelOffset]
  congr 1

/-- C3.  `getret` returns the toolchain's encoding of the
return-from-subroutine instruction: whenever the toolchain has assembled
the block (so the `ret` slot holds the documented `RET`-with-default-link
register encoding), the value returned is that fixed word, `0xD65F03C0`. -/
theorem getret_returns_ret_encoding (base : Nat) (mem : Nat → Nat)
    (x10 r0 : Nat) (h : codeLoaded base mem) :
    (runGetret base mem x10 r0).r = encodeRET 30 ∧ encodeRET 30 = 0xD65F03C0 := by
  constructor
  · rw [runGetret_eq]
    exact h
  · decide

/-- A concrete process memory holding the assembled `getret` block at
address `0`: the `ret` slot (offset 12) holds `0xD65F03C0`. -/
def memWit : Nat → Nat := fun a => if a = 12 then 0xD65F03C0 else 0

/-- A second concrete process memory, with the block at address `100` and
different contents elsewhere. -/
def memWit' : Nat → Nat := fun a => if a = 112 then 0xD65F03C0 else 1

theorem getret_returns_ret_encoding_witness :
    (runGetret 0 memWit 5 6).r = encodeRET 30 ∧ encodeRET 30 = 0xD65F03C0 :=
  getret_returns_ret_encoding 0 memWit 5 6 (by unfold codeLoaded; decide)

/-- C4.  `getret` is deterministic and stateless: two calls in any two
process states containing the assembled block (at possibly different
addresses, with arbitrary other memory contents and arbitrary initial
register junk) return the identical instruction word, and a call leaves the
process memory exactly as it found it. -/
theorem getret_deterministic (base base' : Nat) (mem mem' : Nat → Nat)
    (x10 r0 x10' r0' : Nat) (h : codeLoaded base mem) (h' : codeLoaded base' mem') :
    (runGetret base mem x10 r0).r = (runGetret base' mem' x10' r0').r ∧
      (runGetret base mem x10 r0).mem = mem := by
  rw [runGetret_eq, runGetret_eq]
  exact ⟨h.trans h'.symm, rfl⟩

theorem getret_deterministic_witness :
    (runGetret 0 memWit 5 6).r = (runGetret 100 memWit' 7 8).r ∧
      (runGetret 0 memWit 5 6).mem = memWit :=
  getret_deterministic 0 100 memWit memWit' 5 6 7 8 (by unfold codeLoaded; decide)
    (by unfold codeLoaded; decide)

/-- C5 as stated is false of the code: the `adr` does not target a label
placed immediately after the `ret` (4 past it), and the `ldr` displacement
is not `-4`; label `0:` stands directly on the `ret` and the load
displacement is `0`. -/
theorem getret_layout_counterexample :
    ¬ ((adrTargetOf (codeOf getretAsm)).map labelPos = some (getretRetPos + 4) ∧
        ldrOffOf (codeOf getretAsm) = some (-4)) := by
  decide

/-- C5, amended.  The probe's instruction sequence computes the address of
the label `0:` placed directly ON the return instruction, loads the 32-bit
word located AT that label (displacement `0` — the return instruction
itself), jumps over the return instruction to the second label `1:` placed
immediately after it, and resumes there; the loaded word is the value
returned. -/
theorem getret_layout_amended :
    (adrTargetOf (codeOf getretAsm)).map labelPos = some getretRetPos ∧
      ldrOffOf (codeOf getretAsm) = some 0 ∧
      (brTargetOf (codeOf getretAsm)).map labelPos = some (getretRetPos + 4) ∧
      ∀ (base : Nat) (mem : Nat → Nat) (x10 r0 : Nat),
        (runGetret base mem x10 r0).r = mem (base + getretRetPos) := by
  refine ⟨by decide, by decide, by decide, ?_⟩
  intro base mem x10 r0
  rw [runGetret_eq]
  rfl

/-- C8.  Totality: `selfbar` performs exactly 5 primitive operations for
every address, and every `getret` run executes exactly 3 instructions and
finishes at the end of its block (label `1:`) with no premature exit — both
complete in a bounded, fixed number of steps, for every input, with no
error outcome. -/
theorem selfbar_getret_total (p base : Nat) (mem : Nat → Nat) (x10 r0 : Nat) :
    (selfbarOps p).length = 5 ∧
      (runGetret base mem x10 r0).trace.length = 3 ∧
      (runGetret base mem x10 r0).pc = labelPos .l1 ∧
      (runGetret base mem x10 r0).earlyRet = false := by
  rw [runGetret_eq]
  exact ⟨rfl, rfl, rfl, rfl⟩

/-- C9.  The `ret` embedded in `getret`'s own body (at label `0:`, byte
offset 12) is never executed: the run's trace is the three offsets 0, 4, 8
— never the `ret`'s offset — the premature-return flag stays off, control
always reaches label `1:`, and the function's result is the loaded word. -/
theorem getret_embedded_ret_not_executed (base : Nat) (mem : Nat → Nat)
    (x10 r0 : Nat) :
    getretRetPos ∉ (runGetret base mem x10 r0).trace ∧
      (runGetret base mem x10 r0).earlyRet = false ∧
      (runGetret base mem x10 r0).pc = labelPos .l1 ∧
      (runGetret base mem x10 r0).r = mem (base + getretRetPos) := by
  rw [runGetret_eq]
  exact ⟨(by decide : getretRetPos ∉ ([0, 4, 8] : List Nat)), rfl, rfl, rfl⟩

/-- Core execution state for the round-trip scenario: the cache/memory
state plus the program counter, the link register `x30` and the stack
pointer. -/
structure Mach : Type where
  cache : CacheState
  pc : Nat
  lr : Nat
  sp : Nat

/-- Modelled from the spec: the AArch64 decoder for the `RET` class —
`w` decodes to `RET Xn` exactly when `w = 0xD65F0000 + 32 * n` with
`n < 32`. -/
def decodeRET (w : Nat) : Option Nat :=
  if 0xD65F0000 ≤ w ∧ w < 0xD65F0400 ∧ (w - 0xD65F0000) % 32 = 0 then
    some ((w - 0xD65F0000) / 32)
  else none

/-- Writing a freshly produced instruction word is a data-side store. -/
def writeIns (a w : Nat) (c : CacheState) : CacheState :=
  stepOp (.wr a w) c

/-- Modelled from the spec: a branch-with-link to `target` records the
return address in the link register and transfers control. -/
def execBL (target : Nat) (m : Mach) : Mach :=
  { m with lr := m.pc + 4, pc := target }

/-- Modelled from the spec: fetch the instruction word at the current `pc`
through the instruction-fetch path and execute it; `RET X30` transfers
control to the link register.  (Only the return instruction is given
semantics here — it is the only word the round-trip scenario executes.) -/
def stepFetchExec (m : Mach) : Mach :=
  match decodeRET (instrFetch m.cache m.pc) with
  | some rn => if rn = 30 then { m with pc := m.lr } else m
  | none => m

/-- The round-trip scenario of the spec: write instruction word `w` into
the executable buffer at `buf`, run `selfbar buf`, branch-and-link into the
buffer from `callSite`, and execute what is fetched there. -/
def roundTrip (w buf callSite : Nat) (m : Mach) : Mach :=
  stepFetchExec
    (execBL buf
      { m with cache := selfbarRun buf (writeIns buf w m.cache), pc := callSite })

/-- C6.  Round trip: writing the word returned by `getret` into a fresh
executable buffer, invoking `selfbar` on that address, and transferring
control into the buffer returns to the caller exactly as a normal function
return: the program counter resumes at the instruction following the call,
and the stack pointer and link register are exactly as the call left them
(`sp` untouched, `lr` holding the return address). -/
theorem getret_selfbar_roundtrip (base : Nat) (mem : Nat → Nat)
    (x10 r0 buf callSite : Nat) (m : Mach) (h : codeLoaded base mem) :
    (roundTrip (runGetret base mem x10 r0).r buf callSite m).pc = callSite + 4 ∧
      (roundTrip (runGetret base mem x10 r0).r buf callSite m).sp = m.sp ∧
      (roundTrip (runGetret base mem x10 r0).r buf callSite m).lr = callSite + 4 := by
  have hw : (runGetret base mem x10 r0).r = encodeRET 30 := by
    rw [runGetret_eq]
    exact h
  have hfetch :
      instrFetch (selfbarRun buf (writeIns buf (encodeRET 30) m.cache)) buf =
        encodeRET 30 := by
    have h1 := instrFetch_selfbarRun (writeIns buf (encodeRET 30) m.cache) buf buf rfl
    rw [h1]
    simp [writeIns, stepOp, dataView]
  refine ?_
  rw [hw]
  unfold roundTrip stepFetchExec execBL
  simp only [hfetch]
  have hdec : decodeRET (encodeRET 30) = some 30 := by decide
  rw [hdec]
  exact ⟨rfl, rfl, rfl⟩

/-- A concrete starting machine state for the round-trip witness: stale
instruction words cached everywhere. -/
def mWit : Mach :=
  ⟨sWit, 0, 0, 77⟩

theorem getret_selfbar_roundtrip_witness :
    (roundTrip (runGetret 0 memWit 5 6).r 512 300 mWit).pc = 300 + 4 ∧
      (roundTrip (runGetret 0 memWit 5 6).r 512 300 mWit).sp = mWit.sp ∧
      (roundTrip (runGetret 0 memWit 5 6).r 512 300 mWit).lr = 300 + 4 :=
  getret_selfbar_roundtrip 0 memWit 5 6 512 300 mWit (by unfold codeLoaded; decide)
